import Mathlib

/- A verification development for parse_wiki.py (BgWikiParser): a shallow
   embedding of the document transducer — raw-markup text preprocessing,
   template resolution, top-level text assembly with mention extraction,
   and mention finalization — together with theorems about its behaviour.

   Strings are modelled as lists of characters.  Python regular-expression
   substitutions are modelled as recursive scanners with the same
   left-to-right, non-overlapping semantics (a replacement is not rescanned;
   on a failed match the scan advances one character).  Character classes
   are modelled on their ASCII fragment, which covers every constant the
   source compares against. -/

/-- Characters treated as whitespace by Python str.strip / str.rstrip and by
    the regex class of whitespace characters (ASCII fragment). -/
def pySpace (c : Char) : Bool :=
  c = ' ' || c = '\t' || c = '\n' || c = '\r' || c = '\x0b' || c = '\x0c'

/-- Python str.rstrip with no argument: remove trailing whitespace. -/
def pyRstrip (s : List Char) : List Char :=
  (s.reverse.dropWhile pySpace).reverse

/-- Python str.strip with no argument: remove leading and trailing whitespace. -/
def pyStrip (s : List Char) : List Char :=
  pyRstrip (s.dropWhile pySpace)

/-- Python str.lower (ASCII fragment, as used on the template and heading
    names that the source compares against ASCII constants). -/
def lowerList (s : List Char) : List Char :=
  s.map Char.toLower

/-- Does the second list start with the first one? -/
def listStartsWith : List Char → List Char → Bool
  | [], _ => true
  | _ :: _, [] => false
  | p :: ps, c :: cs => p == c && listStartsWith ps cs

/-- The regex word-character class (ASCII fragment): letters, digits, underscore. -/
def isWordChar (c : Char) : Bool :=
  c.isAlphanum || c = '_'

/-- A dropWhile result is never longer than the input. -/
theorem dropWhile_length_le (p : Char → Bool) (l : List Char) :
    (l.dropWhile p).length ≤ l.length :=
  (List.dropWhile_sublist p).length_le

/-- re.findall of the one-or-more-word-characters pattern: the list of
    maximal runs of word characters of the input. -/
def wordTokens : List Char → List (List Char)
  | [] => []
  | c :: rest =>
    if isWordChar c then
      (c :: rest.takeWhile isWordChar) :: wordTokens (rest.dropWhile isWordChar)
    else
      wordTokens rest
termination_by s => s.length
decreasing_by
  · simp only [List.length_cons]
    exact Nat.lt_succ_of_le (dropWhile_length_le isWordChar rest)
  · simp only [List.length_cons]
    exact Nat.lt_succ_self _

/-- Python " ".join. -/
def joinSp : List (List Char) → List Char
  | [] => []
  | [t] => t
  | t :: t2 :: ts => t ++ ' ' :: joinSp (t2 :: ts)

/-- Python slicing l[-k:]: the last k elements (all of them when fewer). -/
def lastN (l : List (List Char)) (k : Nat) : List (List Char) :=
  l.drop (l.length - k)

/-- The mention record of parse_wiki.py (class MentionRecord): one per
    internal link encountered during assembly. -/
structure MentionRecord where
  link : List Char
  left_text : List Char
  right_text : List Char
  satisfied_right_context : Bool
  text_len_link : Nat
  grab_right_text_pos : Nat
deriving Repr, DecidableEq

/-- MentionRecord.__init__: keeps the last five word tokens of the text to the
    left of the link, and remembers the offset from which the right context is
    grabbed after the document is finalized.  (The Python constructor stores
    the link node itself; the model stores the link target title, which is the
    only part of it the record ever renders.) -/
def MentionRecord.init (link leftText : List Char) (textLenLink : Nat) : MentionRecord :=
  { link := link
    left_text := joinSp (lastN (wordTokens leftText) 5)
    right_text := []
    satisfied_right_context := false
    text_len_link := textLenLink
    grab_right_text_pos := leftText.length + 1 + textLenLink }

/-- MentionRecord.set_whole_text: slice the final text from the grab offset and
    keep its first five word tokens as the right context. -/
def MentionRecord.set_whole_text (m : MentionRecord) (text : List Char) : MentionRecord :=
  { m with right_text := joinSp ((wordTokens (text.drop m.grab_right_text_pos)).take 5) }

/-- MentionRecord.complete: returns the satisfied_right_context flag. -/
def MentionRecord.complete (m : MentionRecord) : Bool :=
  m.satisfied_right_context

/-- The literal opening marker of a DISPLAYTITLE directive. -/
def dtMark : List Char := ("\x7b\x7bDISPLAYTITLE").toList

/-- Scan for the first closing brace pair with no newline before it (the regex
    dot of the DISPLAYTITLE pattern does not match newlines, and the closing is
    matched non-greedily); return the remainder after the pair. -/
def findCloseNoNL : List Char → Option (List Char)
  | [] => none
  | '\x7d' :: '\x7d' :: rest => some rest
  | '\n' :: _ => none
  | _ :: rest => findCloseNoNL rest

theorem findCloseNoNL_length (s : List Char) :
    ∀ r, findCloseNoNL s = some r → r.length + 2 ≤ s.length := by
  induction s using findCloseNoNL.induct <;> intro r h <;>
    simp_all [findCloseNoNL] <;> omega

/-- re.sub removing DISPLAYTITLE directives and trailing whitespace
    (the first preprocessing substitution of _parse_doc). -/
def subDisplayTitle : List Char → List Char
  | [] => []
  | c :: rest =>
    if listStartsWith dtMark (c :: rest) then
      match h : findCloseNoNL ((c :: rest).drop 14) with
      | some r2 => subDisplayTitle (r2.dropWhile pySpace)
      | none => c :: subDisplayTitle rest
    else c :: subDisplayTitle rest
termination_by s => s.length
decreasing_by
  · have h2 := findCloseNoNL_length _ _ h
    have h3 := dropWhile_length_le pySpace r2
    simp only [List.length_drop, List.length_cons] at *
    omega
  · simp only [List.length_cons]
    exact Nat.lt_succ_self _
  · simp only [List.length_cons]
    exact Nat.lt_succ_self _

/-- One attempted match of the balanced-bold-marker pattern: a non-quote
    character c, three quotes, one or more non-quotes, three quotes, and a
    final non-quote; on success returns the replacement of the part after c
    and the unscanned remainder. -/
def boldMatch (c : Char) (s : List Char) : Option (List Char × List Char) :=
  if c = '\'' then none
  else
    match s with
    | '\'' :: '\'' :: '\'' :: rest =>
      if rest.takeWhile (fun x => x != '\'') = [] then none
      else
        match rest.dropWhile (fun x => x != '\'') with
        | '\'' :: '\'' :: '\'' :: z :: rest3 =>
          if z = '\'' then none
          else some (rest.takeWhile (fun x => x != '\'') ++ [z], rest3)
        | _ => none
    | _ => none

theorem boldMatch_some_shape (c : Char) (s : List Char) (p : List Char × List Char)
    (h : boldMatch c s = some p) : ∃ r, s = '\'' :: '\'' :: '\'' :: r := by
  unfold boldMatch at h
  split at h
  · exact absurd h (by simp)
  · split at h
    · exact ⟨_, rfl⟩
    · exact absurd h (by simp)

theorem boldMatch_some_length (c : Char) (s : List Char) (m r3 : List Char)
    (h : boldMatch c s = some (m, r3)) : r3.length < s.length := by
  unfold boldMatch at h
  split at h
  · exact absurd h (by simp)
  · split at h
    · rename_i rest
      split at h
      · exact absurd h (by simp)
      · split at h
        · rename_i z rest3 heq
          split at h
          · exact absurd h (by simp)
          · have h5 := dropWhile_length_le (fun x => x != '\'') rest
            rw [heq] at h5
            simp only [Option.some.injEq, Prod.mk.injEq] at h
            obtain ⟨h1, h2⟩ := h
            subst h2
            simp only [List.length_cons] at h5 ⊢
            omega
        · exact absurd h (by simp)
    · exact absurd h (by simp)

/-- re.sub collapsing balanced bold markers flanked by non-quotes
    (the second preprocessing substitution of _parse_doc). -/
def subBold : List Char → List Char
  | [] => []
  | c :: rest =>
    match h : boldMatch c rest with
    | some (mid, rest3) => c :: (mid ++ subBold rest3)
    | none => c :: subBold rest
termination_by s => s.length
decreasing_by
  · have := boldMatch_some_length _ _ _ _ h
    simp only [List.length_cons]
    omega
  · simp only [List.length_cons]
    exact Nat.lt_succ_self _

/-- re.sub removing every italic marker pair, left to right, non-overlapping
    (the third preprocessing substitution of _parse_doc). -/
def subItalic : List Char → List Char
  | [] => []
  | [c] => [c]
  | c :: d :: rest =>
    if c = '\'' ∧ d = '\'' then subItalic rest
    else c :: subItalic (d :: rest)

/-- The literal table-of-contents directive. -/
def tocMark : List Char := ("__TOC__").toList

/-- re.sub removing table-of-contents directives and trailing whitespace
    (the fourth preprocessing substitution of _parse_doc). -/
def subTOC : List Char → List Char
  | [] => []
  | c :: rest =>
    if listStartsWith tocMark (c :: rest) then
      subTOC (((c :: rest).drop 7).dropWhile pySpace)
    else c :: subTOC rest
termination_by s => s.length
decreasing_by
  · have h3 := dropWhile_length_le pySpace ((c :: rest).drop 7)
    simp only [List.length_drop, List.length_cons] at *
    omega
  · simp only [List.length_cons]
    exact Nat.lt_succ_self _

/-- The Text Preprocessor of _parse_doc: DISPLAYTITLE removal, balanced bold
    marker collapse, unconditional italic marker removal, TOC removal, applied
    in this fixed order. -/
def preprocess (s : List Char) : List Char :=
  subTOC (subItalic (subBold (subDisplayTitle s)))

/-- No two adjacent quote characters occur in the list. -/
def noQQ : List Char → Bool
  | [] => true
  | [_] => true
  | c :: d :: rest => if c = '\'' ∧ d = '\'' then false else noQQ (d :: rest)

theorem noQQ_tail (c : Char) (x : List Char) (h : noQQ (c :: x) = true) :
    noQQ x = true := by
  cases x with
  | nil => rfl
  | cons e xs =>
    unfold noQQ at h
    split at h
    · exact absurd h (by simp)
    · exact h

theorem subItalic_cons_of_head (d : Char) (r : List Char) (hd : d ≠ '\'') :
    subItalic (d :: r) = d :: subItalic r := by
  cases r with
  | nil => rfl
  | cons e r2 =>
    show (if d = '\'' ∧ e = '\'' then subItalic r2 else d :: subItalic (e :: r2)) = _
    rw [if_neg (fun hc => hd hc.1)]

theorem noQQ_subItalic (s : List Char) : noQQ (subItalic s) = true := by
  induction s using subItalic.induct with
  | case1 => rfl
  | case2 c => rfl
  | case3 c d rest hcd ih =>
    rw [subItalic, if_pos hcd]
    exact ih
  | case4 c d rest hcd ih =>
    rw [subItalic, if_neg hcd]
    by_cases hc : c = '\''
    · have hdq : d ≠ '\'' := fun hdq => hcd ⟨hc, hdq⟩
      rw [subItalic_cons_of_head d rest hdq]
      rw [subItalic_cons_of_head d rest hdq] at ih
      unfold noQQ
      rw [if_neg]
      · exact ih
      · intro hx
        exact hdq hx.2
    · cases hx : subItalic (d :: rest) with
      | nil => rfl
      | cons e xs =>
        rw [hx] at ih
        unfold noQQ
        rw [if_neg]
        · exact ih
        · intro hy
          exact hc hy.1

theorem subItalic_of_noQQ (s : List Char) (h : noQQ s = true) : subItalic s = s := by
  induction s using subItalic.induct with
  | case1 => rfl
  | case2 c => rfl
  | case3 c d rest hcd ih =>
    exfalso
    unfold noQQ at h
    rw [if_pos hcd] at h
    exact absurd h (by simp)
  | case4 c d rest hcd ih =>
    rw [subItalic, if_neg hcd]
    rw [ih (noQQ_tail c (d :: rest) h)]

theorem subBold_of_noQQ (s : List Char) (h : noQQ s = true) : subBold s = s := by
  induction s using subBold.induct with
  | case1 => simp [subBold]
  | case2 c rest mid rest3 hm ih =>
    exfalso
    obtain ⟨r, hr⟩ := boldMatch_some_shape c rest (mid, rest3) hm
    subst hr
    have h2 := noQQ_tail c _ h
    unfold noQQ at h2
    rw [if_pos ⟨rfl, rfl⟩] at h2
    exact absurd h2 (by simp)
  | case3 c rest hm ih =>
    have h2 := ih (noQQ_tail c rest h)
    rw [subBold]
    split
    · rename_i mid rest3 hsome
      rw [hsome] at hm
      exact absurd hm (by simp)
    · rw [h2]

/-- The full English month names, lower-cased, with their month numbers
    (the C-locale names matched case-insensitively by strptime). -/
def monthTable : List (Nat × List Char) :=
  [(1, ("january").toList), (2, ("february").toList), (3, ("march").toList),
   (4, ("april").toList), (5, ("may").toList), (6, ("june").toList),
   (7, ("july").toList), (8, ("august").toList), (9, ("september").toList),
   (10, ("october").toList), (11, ("november").toList), (12, ("december").toList)]

/-- Match a full month name (case-insensitively) at the head of the input;
    return the month number and the remainder.  No month name is a proper
    leading piece of another, so the alternation is unambiguous. -/
def matchMonthAux : List (Nat × List Char) → List Char → Option (Nat × List Char)
  | [], _ => none
  | (i, nm) :: rest, s =>
    if listStartsWith nm (lowerList s) then some (i, s.drop nm.length)
    else matchMonthAux rest s

def matchMonth (s : List Char) : Option (Nat × List Char) :=
  matchMonthAux monthTable s

/-- One-or-more whitespace characters (a whitespace run in a strptime format
    string); returns the remainder, or none when no whitespace is present. -/
def takeWS1 (s : List Char) : Option (List Char) :=
  match s with
  | c :: rest => if pySpace c then some (rest.dropWhile pySpace) else none
  | [] => none

def digitVal (c : Char) : Nat := c.toNat - 48

/-- The day-of-month alternation of strptime (two-digit branches first, then
    the bare one-digit branch), in the order the regex engine tries them. -/
def dayCands (s : List Char) : List (Nat × List Char) :=
  match s with
  | [] => []
  | c :: rest =>
    if c.isDigit then
      let d1 := digitVal c
      let two :=
        match rest with
        | [] => []
        | c2 :: r2 =>
          if c2.isDigit then
            let v := d1 * 10 + digitVal c2
            if (d1 = 3 ∧ digitVal c2 ≤ 1) ∨ d1 = 1 ∨ d1 = 2 ∨ (d1 = 0 ∧ 1 ≤ digitVal c2)
            then [(v, r2)] else []
          else []
      let one := if 1 ≤ d1 then [(d1, rest)] else []
      two ++ one
    else []

/-- After the day: a literal comma, a whitespace run, exactly four digits,
    then the end of the string (strptime requires full consumption). -/
def afterDay (s : List Char) : Option Nat :=
  match s with
  | ',' :: rest =>
    match takeWS1 rest with
    | some r2 =>
      match r2 with
      | a :: b :: c :: d :: [] =>
        if a.isDigit && b.isDigit && c.isDigit && d.isDigit then
          some (digitVal a * 1000 + digitVal b * 100 + digitVal c * 10 + digitVal d)
        else none
      | _ => none
    | none => none
  | _ => none

def isLeap (y : Nat) : Bool :=
  y % 4 = 0 && (y % 100 ≠ 0 || y % 400 = 0)

def daysInMonth (y m : Nat) : Nat :=
  if m = 2 then (if isLeap y then 29 else 28)
  else if m = 4 ∨ m = 6 ∨ m = 9 ∨ m = 11 then 30
  else 31

def daysBeforeMonth (y m : Nat) : Nat :=
  ((List.range (m - 1)).map (fun i => daysInMonth y (i + 1))).sum

/-- The proleptic-Gregorian ordinal of a date (Python date.toordinal:
    January 1 of year 1 is day 1). -/
def toOrdinal (y m d : Nat) : Nat :=
  365 * (y - 1) + ((y - 1) / 4 + (y - 1) / 400 - (y - 1) / 100) + daysBeforeMonth y m + d

/-- The C-locale weekday names of strftime, indexed so that
    January 1 of year 1 is a Monday (as in Python date.weekday). -/
def dayNames : List (List Char) :=
  [("Monday").toList, ("Tuesday").toList, ("Wednesday").toList, ("Thursday").toList,
   ("Friday").toList, ("Saturday").toList, ("Sunday").toList]

def weekdayName (y m d : Nat) : List Char :=
  (dayNames.get? ((toOrdinal y m d + 6) % 7)).getD []

/-- datetime.strptime with the month-name/day/year format of _parse_doc:
    full month name, whitespace, day of month, comma, whitespace, four-digit
    year, end of input; then the date is validated as in the datetime
    constructor.  Returns (year, month, day). -/
def strptimeBdY (s : List Char) : Option (Nat × Nat × Nat) :=
  match matchMonth s with
  | none => none
  | some (m, r1) =>
    match takeWS1 r1 with
    | none => none
    | some r2 =>
      match (dayCands r2).findSome? (fun dc => (afterDay dc.2).map (fun y => (y, dc.1))) with
      | none => none
      | some (y, d) =>
        if 1 ≤ y ∧ 1 ≤ d ∧ d ≤ daysInMonth y m then some (y, m, d) else none

/-- The typed parse-tree nodes that can reach the top-level assembly loop of
    _parse_doc after the rewriting stages.  A template carries its name and
    the string forms of its parameters (a named parameter reads
    name-equals-value, a positional one is just its value, as in
    mwparserfromhell).  A wikilink carries its target title and its optional
    display text.  Tag, HTML-entity and comment nodes are eliminated by the
    earlier stages and have no assembly-time behaviour of their own; `extra`
    stands for any remaining node kind (the logging.fatal arm). -/
inductive WNode where
  | template (name : List Char) (params : List (List Char))
  | heading (title : List Char)
  | text (val : List Char)
  | wikilink (title : List Char) (wtext : Option (List Char))
  | extra
deriving Repr, DecidableEq

/-- The distinguishable ways _parse_doc can raise for a document. -/
inductive PErr where
  | resolveIndex
  | dateParamCount
  | dateAfterContent
  | dateParse
  | wIndex
  | unknownTemplate
  | fatalNode
deriving Repr, DecidableEq

/-- The assembly state: the output string and the mention list. -/
def AState : Type := List Char × List MentionRecord

instance : DecidableEq AState := by
  unfold AState
  infer_instance

/-- The outcome of one assembly step: continue, stop parsing (break), or fail. -/
inductive StepRes where
  | next (st : AState)
  | halt (st : AState)
  | err (e : PErr)
deriving DecidableEq

/-- str(param.value): for a named parameter the part after the first
    equals sign, for a positional parameter the whole string. -/
def paramValue (p : List Char) : List Char :=
  if p.contains '=' then (p.dropWhile (fun c => c != '=')).drop 1 else p

/-- The headings whose (stripped, lower-cased) titles end the article content. -/
def stopHeadings : List (List Char) :=
  [("interviews").toList, ("related news").toList, ("sources").toList]

def isStopHeading (raw : List Char) : Bool :=
  stopHeadings.contains (lowerList (pyStrip raw))

/-- Does the link target name a media file (title.lower().startswith("file:"))? -/
def isFileLink (title : List Char) : Bool :=
  listStartsWith (("file:").toList) (lowerList title)

/-- The link text rendered into the output: the explicit display text, or the
    target title when none is given. -/
def linkRepr (title : List Char) (wtext : Option (List Char)) : List Char :=
  wtext.getD title

/-- The date-template arm of the assembly loop: exactly one parameter is
    asserted, then the output so far is right-stripped and asserted empty,
    then the parameter is parsed as a month-name/day/year date; the weekday
    name, a comma-space, the original date string and a paragraph break
    become the new output. -/
def dateStep (ps : List (List Char)) (out : List Char) (ms : List MentionRecord) : StepRes :=
  match ps with
  | [p] =>
    if pyRstrip out = [] then
      match strptimeBdY p with
      | some (y, m, d) =>
        .next (weekdayName y m d ++ (", ").toList ++ p ++ ("\n\n").toList, ms)
      | none => .err .dateParse
    else .err .dateAfterContent
  | _ => .err .dateParamCount

/-- The wikipedia-link-template arm of the assembly loop: the parameters whose
    strings contain no equals sign are the positional ones; indexing the first
    raises when there are none; with at least two the last is the display
    text, else the title is; the text is appended to the output. -/
def wStep (ps : List (List Char)) (out : List Char) (ms : List MentionRecord) : StepRes :=
  match ps.filter (fun p => !(p.contains '=')) with
  | [] => .err .wIndex
  | u :: us =>
    let ttl := paramValue u
    let txt := if us = [] then ttl else paramValue (us.getLastD u)
    .next (out ++ txt, ms)

/-- The heading arm: a stop heading breaks the loop; any other heading appends
    a paragraph break, the stripped title and another paragraph break. -/
def headingStep (raw : List Char) (out : List Char) (ms : List MentionRecord) : StepRes :=
  if isStopHeading raw then .halt (out, ms)
  else .next (pyRstrip out ++ ("\n\n").toList ++ pyStrip raw ++ ("\n\n").toList, ms)

/-- The text arm: append the text, then normalize the whole accumulated output
    (strip spaces before newlines, collapse three or more newlines to two). -/
def subSpaceNL : List Char → List Char
  | [] => []
  | c :: rest =>
    if hc : c = ' ' then
      match h2 : (c :: rest).dropWhile (fun x => x == ' ') with
      | '\n' :: r3 => '\n' :: subSpaceNL r3
      | r2 => (c :: rest).takeWhile (fun x => x == ' ') ++ subSpaceNL r2
    else c :: subSpaceNL rest
termination_by s => s.length
decreasing_by
  · have h4 : (c :: rest).dropWhile (fun x => x == ' ') = rest.dropWhile (fun x => x == ' ') := by
      rw [List.dropWhile_cons_of_pos]
      simp [hc]
    have h5 := dropWhile_length_le (fun x => x == ' ') rest
    rw [h4] at h2
    have h6 : r3.length + 1 = (rest.dropWhile (fun x => x == ' ')).length := by
      rw [h2]
      simp
    simp only [List.length_cons]
    omega
  · have h4 : (c :: rest).dropWhile (fun x => x == ' ') = rest.dropWhile (fun x => x == ' ') := by
      rw [List.dropWhile_cons_of_pos]
      simp [hc]
    have h5 := dropWhile_length_le (fun x => x == ' ') rest
    rw [h4] at h2
    have h6 := congrArg List.length h2
    simp only [List.length_cons]
    omega
  · simp only [List.length_cons]
    exact Nat.lt_succ_self _

def subMultiNL : List Char → List Char
  | [] => []
  | [c] => [c]
  | c :: d :: rest =>
    if c = '\n' ∧ d = '\n' then
      '\n' :: '\n' :: subMultiNL (rest.dropWhile (fun x => x == '\n'))
    else c :: subMultiNL (d :: rest)
termination_by s => s.length
decreasing_by
  · have h5 := dropWhile_length_le (fun x => x == '\n') rest
    simp only [List.length_cons]
    omega
  · simp only [List.length_cons]
    omega

def textStep (v : List Char) (out : List Char) (ms : List MentionRecord) : StepRes :=
  .next (subMultiNL (subSpaceNL (out ++ v)), ms)

/-- The wikilink arm: a media-file link is skipped entirely; otherwise the
    mention record is constructed from the output before the link text is
    appended, and then the link text is appended. -/
def linkStep (title : List Char) (wtext : Option (List Char))
    (out : List Char) (ms : List MentionRecord) : StepRes :=
  if isFileLink title then .next (out, ms)
  else
    .next (out ++ linkRepr title wtext,
      ms ++ [MentionRecord.init title out (linkRepr title wtext).length])

/-- One step of the top-level assembly loop of _parse_doc. -/
def stepNode (n : WNode) (st : AState) : StepRes :=
  match n with
  | .template name2 ps =>
    if lowerList name2 = ("date").toList then dateStep ps st.1 st.2
    else if lowerList name2 = ("w").toList then wStep ps st.1 st.2
    else if lowerList name2 = ("hys").toList ∨ lowerList name2 = ("haveyoursay").toList then
      .halt st
    else .err .unknownTemplate
  | .heading raw => headingStep raw st.1 st.2
  | .text v => textStep v st.1 st.2
  | .wikilink title wtext => linkStep title wtext st.1 st.2
  | .extra => .err .fatalNode

/-- The assembly loop over the top-level nodes, with early termination. -/
def assembleNodes : List WNode → AState → StepRes
  | [], st => .next st
  | n :: ns, st =>
    match stepNode n st with
    | .next st2 => assembleNodes ns st2
    | r => r

/-- Document finalization: right-strip the output, append a paragraph break,
    and resolve every mention's right context against the final text. -/
def finalizeDoc (st : AState) : List Char × List MentionRecord :=
  let out := pyRstrip st.1 ++ ("\n\n").toList
  (out, st.2.map (fun m => m.set_whole_text out))

/-- The assembly half of _parse_doc: run the loop from the empty state (both a
    completed and an early-terminated loop finalize normally; a raise
    propagates). -/
def parseDoc (nodes : List WNode) : Except PErr (List Char × List MentionRecord) :=
  match assembleNodes nodes ([], []) with
  | .next st => .ok (finalizeDoc st)
  | .halt st => .ok (finalizeDoc st)
  | .err e => .error e

/-- The number of mentions emitted for a document, when it succeeds. -/
def docMentionCount (nodes : List WNode) : Option Nat :=
  match parseDoc nodes with
  | .ok (_, ms) => some ms.length
  | .error _ => none

/-- The value classes a successful Python float() call can produce: a finite
    value (modelled as the exact rational the literal denotes), an infinity,
    or a nan. -/
inductive PyFloatLit where
  | fin (q : ℚ)
  | inf (neg : Bool)
  | nan
deriving DecidableEq

/-- Digit run with single underscores allowed between digits (the Python
    float-literal digit grammar); accumulates the value and the digit count,
    stopping before anything that does not continue the run. -/
def digitsUAux : Nat → Nat → List Char → Nat × Nat × List Char
  | acc, cnt, [] => (acc, cnt, [])
  | acc, cnt, c :: rest =>
    if c.isDigit then digitsUAux (acc * 10 + digitVal c) (cnt + 1) rest
    else if c = '_' then
      match rest with
      | d :: r2 =>
        if d.isDigit then digitsUAux (acc * 10 + digitVal d) (cnt + 1) r2
        else (acc, cnt, c :: rest)
      | [] => (acc, cnt, [c])
    else (acc, cnt, c :: rest)
termination_by _ _ s => s.length
decreasing_by
  · simp only [List.length_cons]
    omega
  · simp only [List.length_cons]
    omega

/-- A digit run must begin with a digit (no leading underscore). -/
def digitsU (s : List Char) : Option (Nat × Nat × List Char) :=
  match s with
  | c :: _ => if c.isDigit then some (digitsUAux 0 0 s) else none
  | [] => none

/-- The mantissa of a Python float literal: digits, optionally followed by a
    period and optional fraction digits, or a period followed by digits. -/
def parseMantissa (s : List Char) : Option (ℚ × List Char) :=
  match digitsU s with
  | some (ip, _, r1) =>
    match r1 with
    | '.' :: r2 =>
      match digitsU r2 with
      | some (fp, fc, r3) => some ((ip : ℚ) + (fp : ℚ) / ((10 : ℚ) ^ fc), r3)
      | none => some ((ip : ℚ), r2)
    | _ => some ((ip : ℚ), r1)
  | none =>
    match s with
    | '.' :: r2 =>
      match digitsU r2 with
      | some (fp, fc, r3) => some ((fp : ℚ) / ((10 : ℚ) ^ fc), r3)
      | none => none
    | _ => none

/-- An optional exponent part: e or E, an optional sign, and digits. -/
def parseExpPart (s : List Char) : Option (Int × List Char) :=
  match s with
  | c :: rest =>
    if c = 'e' ∨ c = 'E' then
      match
        (match rest with
         | '+' :: r3 => (false, r3)
         | '-' :: r3 => (true, r3)
         | _ => (false, rest)) with
      | (eneg, r2) =>
        match digitsU r2 with
        | some (ev, _, r3) => some ((if eneg then -(ev : Int) else (ev : Int)), r3)
        | none => none
    else some (0, s)
  | [] => some (0, [])

/-- Python float(str): strip surrounding whitespace, optional sign, then an
    infinity or nan name (case-insensitive) or a decimal literal with an
    optional exponent; the whole string must be consumed.  Returns none
    exactly when float() raises ValueError. -/
def pyFloatParse (s : List Char) : Option PyFloatLit :=
  match
    (match pyStrip s with
     | '+' :: r => (false, r)
     | '-' :: r => (true, r)
     | t => (false, t)) with
  | (neg, t2) =>
    if lowerList t2 = ("inf").toList ∨ lowerList t2 = ("infinity").toList then
      some (.inf neg)
    else if lowerList t2 = ("nan").toList then some .nan
    else
      match parseMantissa t2 with
      | some (mq, r1) =>
        match parseExpPart r1 with
        | some (e, r2) =>
          if r2 = [] then some (.fin ((if neg then -mq else mq) * ((10 : ℚ) ^ e)))
          else none
        | none => none
      | none => none

/-- Round to the nearest integer, ties to even (the rounding of Python's
    fixed-point float formatting). -/
def rndHalfEven (q : ℚ) : Int :=
  let f := Rat.floor q
  let r := q - (f : ℚ)
  if r < 1 / 2 then f
  else if 1 / 2 < r then f + 1
  else if f % 2 = 0 then f else f + 1

/-- Fixed-point rendering with the given precision, sign first (a decimal-
    rational model of Python's fixed-point formatting of a binary double; the
    difference cannot show on the inputs any theorem below touches, since no
    claim concerns the numeric-conversion success path). -/
def fmtFixed (q : ℚ) (prec : Nat) : List Char :=
  let n := (rndHalfEven (|q| * ((10 : ℚ) ^ prec))).toNat
  let sign : List Char := if q < 0 then ['-'] else []
  if prec = 0 then sign ++ (Nat.repr n).toList
  else
    let ip := n / 10 ^ prec
    let fp := n % 10 ^ prec
    let fs := (Nat.repr fp).toList
    sign ++ (Nat.repr ip).toList ++ '.' :: (List.replicate (prec - fs.length) '0' ++ fs)

def litMul (v : PyFloatLit) (q : ℚ) : PyFloatLit :=
  match v with
  | .fin x => .fin (x * q)
  | .inf b => .inf b
  | .nan => .nan

def fmtLit (v : PyFloatLit) (prec : Nat) : List Char :=
  match v with
  | .fin q => fmtFixed q prec
  | .inf b => if b then ("-inf").toList else ("inf").toList
  | .nan => ("nan").toList

/-- The feet-to-meters replacement string (with the non-breaking-space
    entities already in their normalized character form, as the later
    entity pass of _parse_doc leaves them). -/
def ftToMText (v : PyFloatLit) : List Char :=
  fmtLit v 0 ++ ' ' :: ("feet (").toList ++
    fmtLit (litMul v ((3048 : ℚ) / 10000)) 1 ++ ' ' :: ("m)").toList

/-- The miles-to-km replacement string. -/
def miToKmText (v : PyFloatLit) : List Char :=
  fmtLit v 0 ++ ' ' :: ("miles (").toList ++
    fmtLit (litMul v ((160934 : ℚ) / 100000)) 0 ++ ' ' :: ("km)").toList

/-- The Template Resolver pass of _parse_doc for one node (the model is a
    flat top-level node list, so a replacement becomes text nodes in place).
    For the two numeric-conversion templates, a first parameter that float()
    cannot parse raises ValueError, which the surrounding except clause —
    whose purpose is the parent-already-removed tree race — catches, so the
    node is silently left in the tree.  A missing parameter raises IndexError,
    which propagates. -/
def resolveNode (n : WNode) : Except PErr (List WNode) :=
  match n with
  | .template name2 ps =>
    if lowerList name2 = ("translated quote").toList then
      match ps.getLast? with
      | none => .error .resolveIndex
      | some p => .ok [.text ['"'], .text (paramValue p), .text ['"']]
    else if lowerList name2 = ("translation note").toList then
      match ps.head? with
      | none => .error .resolveIndex
      | some p => .ok [.text (paramValue p)]
    else if lowerList name2 = ("nowrap").toList then
      match ps.head? with
      | none => .error .resolveIndex
      | some p => .ok [.text (paramValue p)]
    else if lowerList name2 = ("wikt").toList then
      match ps.getLast? with
      | none => .error .resolveIndex
      | some p => .ok [.text (paramValue p)]
    else if lowerList name2 = ("ft to m").toList then
      match ps.head? with
      | none => .error .resolveIndex
      | some p =>
        match pyFloatParse (paramValue p) with
        | some v => .ok [.text (ftToMText v)]
        | none => .ok [n]
    else if lowerList name2 = ("mi to km").toList then
      match ps.head? with
      | none => .error .resolveIndex
      | some p =>
        match pyFloatParse (paramValue p) with
        | some v => .ok [.text (miToKmText v)]
        | none => .ok [n]
    else if lowerList name2 = ("date").toList ∨ lowerList name2 = ("w").toList ∨
        lowerList name2 = ("hys").toList ∨ lowerList name2 = ("haveyoursay").toList then
      .ok [n]
    else .ok []
  | _ => .ok [n]

/-- The Template Resolver pass over the whole node list. -/
def resolveTemplates : List WNode → Except PErr (List WNode)
  | [] => .ok []
  | n :: ns =>
    match resolveNode n with
    | .error e => .error e
    | .ok rs =>
      match resolveTemplates ns with
      | .error e => .error e
      | .ok rs2 => .ok (rs ++ rs2)

/-- Template resolution followed by assembly: the part of the _parse_doc
    pipeline the error-handling claims range over. -/
def fullParse (nodes : List WNode) : Except PErr (List Char × List MentionRecord) :=
  match resolveTemplates nodes with
  | .error e => .error e
  | .ok ns => parseDoc ns

/-- Modelled from the spec: the Entity Summarizer (spec section 4.6).  No
    summary computation exists in src/parse_wiki.py; this definition follows
    the spec's words: trim leading and trailing whitespace; when a period is
    present, the summary is the substring up to and excluding the first
    period; otherwise it is the first 20 characters. -/
def summarize (s : List Char) : List Char :=
  if (pyStrip s).contains '.' then (pyStrip s).takeWhile (fun c => c != '.')
  else (pyStrip s).take 20

theorem takeWhile_all_append (p : Char → Bool) (t r : List Char)
    (h : ∀ c ∈ t, p c = true) : (t ++ r).takeWhile p = t ++ r.takeWhile p := by
  induction t with
  | nil => rfl
  | cons a t2 ih =>
    have ha : p a = true := h a (List.mem_cons_self a t2)
    simp only [List.cons_append, List.takeWhile_cons_of_pos ha]
    rw [ih (fun c hc => h c (List.mem_cons_of_mem a hc))]

theorem dropWhile_all_append (p : Char → Bool) (t r : List Char)
    (h : ∀ c ∈ t, p c = true) : (t ++ r).dropWhile p = r.dropWhile p := by
  induction t with
  | nil => rfl
  | cons a t2 ih =>
    have ha : p a = true := h a (List.mem_cons_self a t2)
    simp only [List.cons_append, List.dropWhile_cons_of_pos ha]
    exact ih (fun c hc => h c (List.mem_cons_of_mem a hc))

/-- Every token the word tokenizer produces is a nonempty run of word characters. -/
theorem wordTokens_mem (s : List Char) :
    ∀ t ∈ wordTokens s, t ≠ [] ∧ ∀ c ∈ t, isWordChar c = true := by
  induction s using wordTokens.induct with
  | case1 =>
    intro t ht
    simp [wordTokens] at ht
  | case2 c rest hw ih =>
    intro t ht
    rw [wordTokens, if_pos hw] at ht
    rcases List.mem_cons.mp ht with h1 | h2
    · subst h1
      refine ⟨by simp, ?_⟩
      intro x hx
      rcases List.mem_cons.mp hx with h3 | h4
      · subst h3; exact hw
      · exact List.mem_takeWhile_imp h4
    · exact ih t h2
  | case3 c rest hw ih =>
    intro t ht
    rw [wordTokens, if_neg hw] at ht
    exact ih t ht

theorem wordTokens_space_cons (s : List Char) : wordTokens (' ' :: s) = wordTokens s := by
  rw [wordTokens, if_neg (by decide)]

/-- Tokenizing one word followed by a space recovers the word as a token. -/
theorem wordTokens_word_append (t s : List Char) (hne : t ≠ [])
    (hw : ∀ c ∈ t, isWordChar c = true) :
    wordTokens (t ++ ' ' :: s) = t :: wordTokens s := by
  cases t with
  | nil => exact absurd rfl hne
  | cons c t2 =>
    have hc : isWordChar c = true := hw c (List.mem_cons_self c t2)
    have hw2 : ∀ x ∈ t2, isWordChar x = true :=
      fun x hx => hw x (List.mem_cons_of_mem c hx)
    rw [List.cons_append, wordTokens, if_pos hc]
    rw [takeWhile_all_append isWordChar t2 (' ' :: s) hw2]
    rw [dropWhile_all_append isWordChar t2 (' ' :: s) hw2]
    rw [List.takeWhile_cons_of_neg (by decide), List.dropWhile_cons_of_neg (by decide)]
    rw [wordTokens_space_cons]
    simp

theorem wordTokens_word (t : List Char) (hne : t ≠ [])
    (hw : ∀ c ∈ t, isWordChar c = true) : wordTokens t = [t] := by
  cases t with
  | nil => exact absurd rfl hne
  | cons c t2 =>
    have hc : isWordChar c = true := hw c (List.mem_cons_self c t2)
    have hw2 : ∀ x ∈ t2, isWordChar x = true :=
      fun x hx => hw x (List.mem_cons_of_mem c hx)
    rw [wordTokens, if_pos hc]
    have h1 : t2.takeWhile isWordChar = t2 := by
      have h3 := takeWhile_all_append isWordChar t2 [] hw2
      simpa using h3
    have h2 : t2.dropWhile isWordChar = [] := by
      have h3 := dropWhile_all_append isWordChar t2 [] hw2
      simpa using h3
    rw [h1, h2, wordTokens]

/-- Tokenizing a space-join of nonempty all-word tokens recovers the tokens. -/
theorem wordTokens_joinSp (ts : List (List Char))
    (h : ∀ t ∈ ts, t ≠ [] ∧ ∀ c ∈ t, isWordChar c = true) :
    wordTokens (joinSp ts) = ts := by
  induction ts with
  | nil => rw [joinSp, wordTokens]
  | cons t ts2 ih =>
    cases ts2 with
    | nil =>
      rw [joinSp]
      exact wordTokens_word t (h t (by simp)).1 (h t (by simp)).2
    | cons t2 ts3 =>
      rw [joinSp]
      rw [wordTokens_word_append t _ (h t (by simp)).1 (h t (by simp)).2]
      rw [ih (fun x hx => h x (List.mem_cons_of_mem t hx))]

/-- C1: for every mention record the assembler builds, the left context (at
    creation time) and the right context (after document-end finalization)
    each hold at most five tokens, and every token is a nonempty run of word
    characters; finalization leaves the left context unchanged. -/
theorem c1_context_token_bounds (link lt : List Char) (n : Nat) (txt : List Char) :
    ((wordTokens (MentionRecord.init link lt n).left_text).length ≤ 5 ∧
        ∀ t ∈ wordTokens (MentionRecord.init link lt n).left_text,
          t ≠ [] ∧ ∀ c ∈ t, isWordChar c = true) ∧
      ((MentionRecord.init link lt n).set_whole_text txt).left_text =
        (MentionRecord.init link lt n).left_text ∧
      (wordTokens (((MentionRecord.init link lt n).set_whole_text txt).right_text)).length ≤ 5 ∧
        ∀ t ∈ wordTokens (((MentionRecord.init link lt n).set_whole_text txt).right_text),
          t ≠ [] ∧ ∀ c ∈ t, isWordChar c = true := by
  have hLmem : ∀ t ∈ lastN (wordTokens lt) 5, t ≠ [] ∧ ∀ c ∈ t, isWordChar c = true :=
    fun t ht => wordTokens_mem lt t (List.mem_of_mem_drop ht)
  have hLw : wordTokens ((MentionRecord.init link lt n).left_text) = lastN (wordTokens lt) 5 :=
    wordTokens_joinSp _ hLmem
  have hRmem : ∀ t ∈ (wordTokens
        (txt.drop (MentionRecord.init link lt n).grab_right_text_pos)).take 5,
      t ≠ [] ∧ ∀ c ∈ t, isWordChar c = true :=
    fun t ht => wordTokens_mem _ t (List.mem_of_mem_take ht)
  have hRw : wordTokens (((MentionRecord.init link lt n).set_whole_text txt).right_text) =
      (wordTokens (txt.drop (MentionRecord.init link lt n).grab_right_text_pos)).take 5 :=
    wordTokens_joinSp _ hRmem
  refine ⟨⟨?_, ?_⟩, rfl, ?_, ?_⟩
  · rw [hLw]
    unfold lastN
    rw [List.length_drop]
    omega
  · rw [hLw]
    exact hLmem
  · rw [hRw]
    rw [List.length_take]
    exact Nat.min_le_left _ _
  · rw [hRw]
    exact hRmem

/-- C1 (witness instance): the token bounds at a concrete record. -/
theorem c1_witness :
    (wordTokens (MentionRecord.init (("L").toList) (("a b c d e f g").toList) 1).left_text).length ≤ 5 ∧
    (wordTokens (((MentionRecord.init (("L").toList) (("a b c d e f g").toList) 1).set_whole_text
        (("a b c d e f g h i j k").toList)).right_text)).length ≤ 5 :=
  ⟨(c1_context_token_bounds (("L").toList) (("a b c d e f g").toList) 1
      (("a b c d e f g h i j k").toList)).1.1,
   (c1_context_token_bounds (("L").toList) (("a b c d e f g").toList) 1
      (("a b c d e f g h i j k").toList)).2.2.1⟩

/-- C2 (counterexample): a finalized record whose right context holds four
    tokens still has complete() return false: the flag is never set. -/
theorem c2_counterexample :
    3 < (wordTokens ((MentionRecord.init (("x").toList) (("").toList) 0).set_whole_text
        (("p one two three four").toList)).right_text).length ∧
    ((MentionRecord.init (("x").toList) (("").toList) 0).set_whole_text
        (("p one two three four").toList)).complete = false := by
  constructor
  · simp +decide [MentionRecord.init, MentionRecord.set_whole_text, wordTokens, joinSp, lastN]
  · rfl

/-- C2 (amended): complete() — the satisfied_right_context flag — is false for
    every mention record, both at creation and after finalization: the flag is
    initialized to false and never updated anywhere, and no left-completeness
    flag exists at all. -/
theorem c2_complete_always_false (link lt : List Char) (n : Nat) (txt : List Char) :
    (MentionRecord.init link lt n).complete = false ∧
      ((MentionRecord.init link lt n).set_whole_text txt).complete = false :=
  ⟨rfl, rfl⟩

/-- C8 (counterexample): the preprocessor is not idempotent — removing one TOC
    directive can splice together a new one, which a second run then removes. -/
theorem c8_counterexample :
    preprocess (preprocess (("__TO__TOC__C__").toList)) ≠
      preprocess (("__TO__TOC__C__").toList) := by
  simp +decide [preprocess, subTOC, subItalic, subBold, subDisplayTitle]

/-- C8 (amended): the quote-marker stages are idempotent: after the bold and
    italic substitutions no italic pair remains, so re-running the bold and
    italic stages on their own output changes nothing.  (Idempotence of the
    full preprocessor fails only through directive splicing in the
    DISPLAYTITLE and TOC removals.) -/
theorem c8_quote_stages_idempotent (s : List Char) :
    subItalic (subBold (subItalic (subBold s))) = subItalic (subBold s) := by
  have h := noQQ_subItalic (subBold s)
  rw [subBold_of_noQQ _ h, subItalic_of_noQQ _ h]

/-- C3 (evaluation at the failing input): for the document consisting of a
    text run, a have-your-say template and a feet-to-meters template whose
    parameter "abc" does not parse as a float, the resolver leaves the
    malformed template in place (float()'s ValueError is swallowed by the
    except clause intended for the removed-parent tree race) and the pipeline
    then succeeds with output for the document — no error is ever surfaced. -/
theorem c3_malformed_template_silent :
    resolveTemplates [WNode.text (("Hello").toList), WNode.template (("hys").toList) [],
        WNode.template (("ft to m").toList) [("abc").toList]] =
      Except.ok [WNode.text (("Hello").toList), WNode.template (("hys").toList) [],
        WNode.template (("ft to m").toList) [("abc").toList]] ∧
    fullParse [WNode.text (("Hello").toList), WNode.template (("hys").toList) [],
        WNode.template (("ft to m").toList) [("abc").toList]] =
      Except.ok ((("Hello\n\n").toList), ([] : List MentionRecord)) := by
  constructor
  · simp +decide [resolveTemplates, resolveNode, pyFloatParse, parseMantissa, digitsU,
      parseExpPart, paramValue, pyStrip, pyRstrip]
  · simp +decide [fullParse, resolveTemplates, resolveNode, pyFloatParse, parseMantissa,
      digitsU, parseExpPart, paramValue, parseDoc, assembleNodes, stepNode, textStep,
      subSpaceNL, subMultiNL, finalizeDoc, pyStrip, pyRstrip, dateStep, wStep, headingStep]

/-- C4 (counterexample): a document of six links emits six mentions — more
    than the only configurable limit of the program (max_records, default 5,
    which in fact caps documents), so no per-document truncation happens. -/
theorem c4_counterexample :
    docMentionCount (List.replicate 6 (WNode.wikilink (("a").toList) none)) = some 6 := by
  simp +decide [docMentionCount, parseDoc, assembleNodes, stepNode, linkStep, finalizeDoc,
    MentionRecord.init, MentionRecord.set_whole_text, wordTokens, joinSp, lastN, linkRepr,
    isFileLink, subSpaceNL, subMultiNL]

theorem assembleLinks_count (n : Nat) : ∀ (out : List Char) (ms : List MentionRecord),
    ∃ st : AState,
      assembleNodes (List.replicate n (WNode.wikilink (("a").toList) none)) (out, ms) =
        .next st ∧ st.2.length = ms.length + n := by
  induction n with
  | zero =>
    intro out ms
    exact ⟨(out, ms), by rw [List.replicate_zero, assembleNodes], by simp⟩
  | succ k ih =>
    intro out ms
    have hstep : stepNode (WNode.wikilink (("a").toList) none) (out, ms) =
        .next (out ++ linkRepr (("a").toList) none,
          ms ++ [MentionRecord.init (("a").toList) out (linkRepr (("a").toList) none).length]) := by
      simp +decide [stepNode, linkStep, isFileLink]
    obtain ⟨st, h1, h2⟩ := ih (out ++ linkRepr (("a").toList) none)
      (ms ++ [MentionRecord.init (("a").toList) out (linkRepr (("a").toList) none).length])
    refine ⟨st, ?_, ?_⟩
    · rw [List.replicate_succ, assembleNodes, hstep]
      exact h1
    · rw [h2]
      simp
      omega

/-- C4 (amended): no per-document cap is applied to the completed mention
    list: a document of n links emits exactly n mentions, for every n.  The
    program's only configurable limit, max_records, caps the number of
    documents processed, never the mentions of one document. -/
theorem c4_no_mention_cap (n : Nat) :
    docMentionCount (List.replicate n (WNode.wikilink (("a").toList) none)) = some n := by
  obtain ⟨st, h1, h2⟩ := assembleLinks_count n [] []
  unfold docMentionCount parseDoc
  rw [h1]
  simp [finalizeDoc, h2]

theorem contains_false_of_not_mem (l : List Char) (a : Char) (h : a ∉ l) :
    l.contains a = false := by
  cases hc : l.contains a with
  | false => rfl
  | true =>
    exfalso
    obtain ⟨b, hb, hbeq⟩ := List.contains_iff_exists_mem_beq.mp hc
    exact h (eq_of_beq hbeq ▸ hb)

/-- C5: the entity summary of a finalized text (summarizer modelled from the
    spec, see the summarize definition): on the spec's example it equals
    "Sofia is the capital"; with no period in the trimmed text it is the first
    20 characters; with a period it is the part of the trimmed text strictly
    before the first period — period-free, and a front part the trimmed text
    extends at the first period. -/
theorem c5_summary (s : List Char) :
    summarize (("Sofia is the capital. More details.").toList) =
      ("Sofia is the capital").toList ∧
    ((pyStrip s).contains '.' = false → summarize s = (pyStrip s).take 20) ∧
    ((pyStrip s).contains '.' = true →
      summarize s = (pyStrip s).takeWhile (fun c => c != '.') ∧
      (summarize s).contains '.' = false ∧
      summarize s ++ (pyStrip s).dropWhile (fun c => c != '.') = pyStrip s) := by
  refine ⟨by simp +decide [summarize, pyStrip, pyRstrip], ?_, ?_⟩
  · intro h
    have hne : ¬ ((pyStrip s).contains '.' = true) := by
      rw [h]
      simp
    unfold summarize
    rw [if_neg hne]
  · intro h
    have hval : summarize s = (pyStrip s).takeWhile (fun c => c != '.') := by
      unfold summarize
      rw [if_pos h]
    refine ⟨hval, ?_, ?_⟩
    · rw [hval]
      refine contains_false_of_not_mem _ _ (fun hm => ?_)
      have h2 := List.mem_takeWhile_imp hm
      simp at h2
    · rw [hval]
      exact List.takeWhile_append_dropWhile _ _

/-- C5 (witness instance): the two summarizer branches at concrete inputs. -/
theorem c5_summary_witness :
    summarize (("Sofia is the capital. More details.").toList) =
      ("Sofia is the capital").toList ∧
    summarize (("no dots here").toList) = (pyStrip (("no dots here").toList)).take 20 :=
  ⟨(c5_summary []).1, (c5_summary (("no dots here").toList)).2.1 (by decide)⟩

/-- Assembly over an appended list runs the first part and, only when it
    neither stopped nor failed, continues with the second. -/
theorem assembleNodes_append (xs ys : List WNode) (st : AState) :
    assembleNodes (xs ++ ys) st =
      match assembleNodes xs st with
      | .next st2 => assembleNodes ys st2
      | .halt st2 => .halt st2
      | .err e => .err e := by
  induction xs generalizing st with
  | nil => rfl
  | cons n ns ih =>
    rw [List.cons_append, assembleNodes, assembleNodes]
    cases stepNode n st with
    | next st2 => exact ih st2
    | halt st2 => rfl
    | err e => rfl

/-- C6: a heading whose trimmed, lower-cased title is in the end-of-content
    set truncates the document: processing any node list with such a heading
    produces exactly the output and mentions of the nodes strictly before it
    (with the usual finalization). -/
theorem c6_stop_heading_truncates (l1 l2 : List WNode) (t : List Char)
    (h : isStopHeading t = true) :
    parseDoc (l1 ++ WNode.heading t :: l2) = parseDoc l1 := by
  unfold parseDoc
  rw [assembleNodes_append]
  cases hres : assembleNodes l1 ([], []) with
  | next st =>
    obtain ⟨o, ms⟩ := st
    have hh : assembleNodes (WNode.heading t :: l2) (o, ms) = .halt (o, ms) := by
      rw [assembleNodes]
      have hstep : stepNode (WNode.heading t) (o, ms) = .halt (o, ms) := by
        show headingStep t o ms = .halt (o, ms)
        unfold headingStep
        rw [if_pos h]
      rw [hstep]
    dsimp only
    rw [hh]
  | halt st => rfl
  | err e => rfl

/-- C6 (witness instance): a Sources heading truncates a concrete document. -/
theorem c6_witness :
    isStopHeading (("Sources").toList) = true ∧
    parseDoc ([WNode.text (("A").toList)] ++ WNode.heading (("Sources").toList) ::
        [WNode.text (("B").toList)]) =
      parseDoc [WNode.text (("A").toList)] :=
  ⟨by decide,
   c6_stop_heading_truncates [WNode.text (("A").toList)] [WNode.text (("B").toList)]
     (("Sources").toList) (by decide)⟩

/-- C7 (amended): the date-template arm of the assembler fails with a
    distinguishable error unless it carries exactly one parameter, the
    right-stripped output so far is empty, and the parameter parses as a full
    month-name/day/year date; when all three hold it makes the output the
    weekday name, a comma and space, the original date string, and a
    paragraph break. -/
theorem c7_date_step (name2 : List Char) (ps : List (List Char)) (out : List Char)
    (ms : List MentionRecord) (hn : lowerList name2 = ("date").toList) :
    (ps.length ≠ 1 → stepNode (.template name2 ps) (out, ms) = .err .dateParamCount) ∧
    (∀ p, ps = [p] → pyRstrip out ≠ [] →
      stepNode (.template name2 ps) (out, ms) = .err .dateAfterContent) ∧
    (∀ p, ps = [p] → pyRstrip out = [] → strptimeBdY p = none →
      stepNode (.template name2 ps) (out, ms) = .err .dateParse) ∧
    (∀ p y m d, ps = [p] → pyRstrip out = [] → strptimeBdY p = some (y, m, d) →
      stepNode (.template name2 ps) (out, ms) =
        .next (weekdayName y m d ++ (", ").toList ++ p ++ ("\n\n").toList, ms)) := by
  have hs : stepNode (.template name2 ps) (out, ms) = dateStep ps out ms := by
    show (if lowerList name2 = ("date").toList then dateStep ps out ms
      else if lowerList name2 = ("w").toList then wStep ps out ms
      else if lowerList name2 = ("hys").toList ∨ lowerList name2 = ("haveyoursay").toList then
        .halt (out, ms)
      else .err .unknownTemplate) = dateStep ps out ms
    rw [if_pos hn]
  refine ⟨?_, ?_, ?_, ?_⟩
  · intro hlen
    rw [hs]
    cases ps with
    | nil => rfl
    | cons p ps2 =>
      cases ps2 with
      | nil => exact absurd rfl hlen
      | cons q ps3 => rfl
  · intro p hp hout
    subst hp
    rw [hs]
    simp only [dateStep]
    rw [if_neg hout]
  · intro p hp hout hparse
    subst hp
    rw [hs]
    simp only [dateStep]
    rw [if_pos hout, hparse]
  · intro p y m d hp hout hparse
    subst hp
    rw [hs]
    simp only [dateStep]
    rw [if_pos hout, hparse]

/-- C7 (witness instance): a well-formed first-content date template. -/
theorem c7_witness :
    strptimeBdY (("February 7, 2018").toList) = some (2018, 2, 7) ∧
    stepNode (.template (("date").toList) [("February 7, 2018").toList]) ([], []) =
      .next ((("Wednesday, February 7, 2018\n\n").toList), []) := by
  refine ⟨by decide, ?_⟩
  have h := (c7_date_step (("date").toList) [("February 7, 2018").toList] [] [] (by decide)).2.2.2
    (("February 7, 2018").toList) 2018 2 7 rfl (by decide) (by decide)
  have h2 : weekdayName 2018 2 7 ++ (", ").toList ++ (("February 7, 2018").toList) ++
      ("\n\n").toList = ("Wednesday, February 7, 2018\n\n").toList := by decide
  rw [h, h2]

/-- C7 (counterexample): with the claim's preconditions satisfied — exactly
    one parameter and empty accumulated output — a parameter that does not
    parse as a date makes the arm fail instead of appending anything. -/
theorem c7_counterexample :
    pyRstrip ([] : List Char) = [] ∧
    stepNode (.template (("date").toList) [("x").toList]) ([], []) = .err .dateParse := by
  exact ⟨rfl, by decide⟩

/-- C9: the wikilink arm of the assembler: a media-file link appends nothing
    and creates no mention; any other link creates exactly one mention, built
    from the output before the link text is appended, and then appends the
    display text (the explicit link text, or the title when none is given). -/
theorem c9_link_step (title : List Char) (wtext : Option (List Char))
    (out : List Char) (ms : List MentionRecord) :
    (isFileLink title = true →
      stepNode (.wikilink title wtext) (out, ms) = .next (out, ms)) ∧
    (isFileLink title = false →
      stepNode (.wikilink title wtext) (out, ms) =
        .next (out ++ linkRepr title wtext,
          ms ++ [MentionRecord.init title out (linkRepr title wtext).length])) := by
  constructor
  · intro h
    show linkStep title wtext out ms = _
    unfold linkStep
    rw [if_pos h]
  · intro h
    show linkStep title wtext out ms = _
    unfold linkStep
    rw [if_neg (by rw [h]; simp)]

/-- C9 (witness instance): a file link is skipped; an ordinary link appends
    its text and records one mention built from the previous output. -/
theorem c9_witness :
    stepNode (.wikilink (("File:Example.jpg").toList) none) ((("x").toList), []) =
      .next ((("x").toList), []) ∧
    stepNode (.wikilink (("Sofia").toList) none) ((("x").toList), []) =
      .next ((("x").toList) ++ linkRepr (("Sofia").toList) none,
        [] ++ [MentionRecord.init (("Sofia").toList) (("x").toList)
          (linkRepr (("Sofia").toList) none).length]) :=
  ⟨(c9_link_step (("File:Example.jpg").toList) none (("x").toList) []).1 (by decide),
   (c9_link_step (("Sofia").toList) none (("x").toList) []).2 (by decide)⟩

/-- C10: a wikipedia-link template whose every parameter string contains an
    equals sign leaves the positional-parameter filter empty, and the access
    to its first element fails with the distinct index error — the document
    fails rather than producing output or skipping the template. -/
theorem c10_w_index_error (name2 : List Char) (ps : List (List Char)) (out : List Char)
    (ms : List MentionRecord) (hn : lowerList name2 = ("w").toList)
    (hps : ∀ p ∈ ps, p.contains '=' = true) :
    stepNode (.template name2 ps) (out, ms) = .err .wIndex := by
  have hs : stepNode (.template name2 ps) (out, ms) = wStep ps out ms := by
    show (if lowerList name2 = ("date").toList then dateStep ps out ms
      else if lowerList name2 = ("w").toList then wStep ps out ms
      else if lowerList name2 = ("hys").toList ∨ lowerList name2 = ("haveyoursay").toList then
        .halt (out, ms)
      else .err .unknownTemplate) = wStep ps out ms
    rw [hn]
    rw [if_neg (by decide), if_pos rfl]
  rw [hs]
  have hf : ps.filter (fun p => !(p.contains '=')) = [] := by
    rw [List.filter_eq_nil_iff]
    intro p hp
    simpa using hps p hp
  unfold wStep
  rw [hf]

/-- C10 (witness instance): a w template whose only parameter is named. -/
theorem c10_witness :
    stepNode (.template (("w").toList) [("a=b").toList]) ([], []) = .err .wIndex :=
  c10_w_index_error (("w").toList) [("a=b").toList] [] [] (by decide) (by decide)
